import Mathlib

/-!
# Verification of the keyboard-aware autocorrect engine (versions/ver1.py)

Shallow embedding of the core of `ver1.py`: the weighted edit-distance
similarity (`modified_levenshtein_ratio`) and the suggestion ranker
(`autocorrect`).

Modelling choices:
* Python strings are `List Char`; `str.lower()` is per-character
  `Char.toLower` (the inputs of interest are ASCII).
* Python floats are modelled as exact rationals `ℚ`.  Every cost in the
  program is a multiple of 0.5 and the thresholds 0.75 and 0.90 are decimal
  literals, so the intended arithmetic is exact.
* The keymap dictionary `nearby_keys` is an association list
  `List (Char × List Char)`; `dict.get(c, [])` is first-match lookup with
  default `[]` (Python dict keys are unique, so first-match agrees).
* The DP table of `modified_levenshtein_ratio` is built row by row exactly
  as in the source: `dpRow` produces row `i` of the table from row `i - 1`
  (`dpGo` fills one row left to right).
* `list.sort(key=..., reverse=True)` is a stable descending sort; `sortDesc`
  is a stable descending insertion sort, hence produces the same list (the
  output of a stable sort is uniquely determined; we prove both sortedness
  and stability below).
-/

/-- The neighbor-key relation: Python dict `{char: [chars]}` as an
association list. -/
abbrev KeyMap := List (Char × List Char)

/-- First-match association-list lookup with default `[]`:
Python `nearby_keys.get(c1, [])`. -/
def getNeighbors (m : KeyMap) (c : Char) : List Char :=
  match m with
  | [] => []
  | (k, v) :: rest => if k = c then v else getNeighbors rest c

/-- `are_keys_nearby(c1, c2, nearby_keys)` from ver1.py: lowercase both
characters, then test `c2 in nearby_keys.get(c1, [])`. -/
def are_keys_nearby (c1 c2 : Char) (nearby_keys : KeyMap) : Bool :=
  decide (c2.toLower ∈ getNeighbors nearby_keys c1.toLower)

/-- The substitution cost of the inner loop of `modified_levenshtein_ratio`
(ver1.py lines 60-69): `0` if the characters are (exactly) equal, `0.5` if
they are nearby keys, `1` otherwise. -/
def substCost (c1 c2 : Char) (nearby_keys : KeyMap) : ℚ :=
  if c1 = c2 then 0
  else if are_keys_nearby c1 c2 nearby_keys then 1/2
  else 1

/-- One row of the DP table: given row `i` of the table as `prev`,
`dpGo word1 word2 R i prev j` is the entry `dp[i+1][j]`.  `j = 0` is the
base case `dp[i+1][0] = i+1`; the inductive case is the minimum of
deletion `dp[i][j+1] + 1`, insertion `dp[i+1][j] + 1` and substitution
`dp[i][j] + cost` with the cost of `word1[i]` versus `word2[j]`
(0-indexed; the indices used below are always in range when reached from
`modified_levenshtein_ratio`, so the `getD` default is never consulted). -/
def dpGo (word1 word2 : List Char) (nearby_keys : KeyMap) (i : ℕ)
    (prev : ℕ → ℚ) : ℕ → ℚ
  | 0 => (i : ℚ) + 1
  | j + 1 =>
    min (prev (j + 1) + 1)
      (min (dpGo word1 word2 nearby_keys i prev j + 1)
        (prev j + substCost (word1.getD i ' ') (word2.getD j ' ') nearby_keys))

/-- `dpRow word1 word2 R i j` is the DP table entry `dp[i][j]` of
`modified_levenshtein_ratio`: row `0` is `dp[0][j] = j`, and row `i + 1`
is computed from row `i` by `dpGo`. -/
def dpRow (word1 word2 : List Char) (nearby_keys : KeyMap) : ℕ → ℕ → ℚ
  | 0 => fun j => (j : ℚ)
  | i + 1 => dpGo word1 word2 nearby_keys i (dpRow word1 word2 nearby_keys i)

/-- `modified_levenshtein_ratio(word1, word2, nearby_keys)` from ver1.py:
the final distance is `dp[len1][len2]`, the denominator is
`max(len1, len2)` floored at 1, and the ratio is `1 - dist / max_len`. -/
def modified_levenshtein_ratio (word1 word2 : List Char)
    (nearby_keys : KeyMap) : ℚ :=
  let len1 := word1.length
  let len2 := word2.length
  let dist := dpRow word1 word2 nearby_keys len1 len2
  let max_len : ℚ := if max len1 len2 ≠ 0 then ((max len1 len2 : ℕ) : ℚ) else 1
  1 - dist / max_len

/-- Stable descending insertion into a list sorted by score: walk past
entries with strictly greater score, so an inserted entry lands before
every entry of equal score that was already present. -/
def insertDesc (x : List Char × ℚ) :
    List (List Char × ℚ) → List (List Char × ℚ)
  | [] => [x]
  | y :: ys => if x.2 < y.2 then y :: insertDesc x ys else x :: y :: ys

/-- Stable descending sort by score: the semantics of
`similarities.sort(key=lambda x: x[1], reverse=True)` (Python's sort is
stable, and a stable sort's output is determined by sortedness plus
stability, both proved below). -/
def sortDesc : List (List Char × ℚ) → List (List Char × ℚ)
  | [] => []
  | x :: xs => insertDesc x (sortDesc xs)

/-- The filtering loop of `autocorrect` (ver1.py lines 88-93): lowercase the
input word, score every dictionary entry, and keep the pairs `(w, sim)`
with `sim >= threshold`, in dictionary order. -/
def retainedCandidates (word : List Char) (dictionary : List (List Char))
    (threshold : ℚ) (nearby_keys : KeyMap) : List (List Char × ℚ) :=
  let word := word.map Char.toLower
  dictionary.filterMap fun w =>
    let sim := modified_levenshtein_ratio word w nearby_keys
    if threshold ≤ sim then some (w, sim) else none

/-- `autocorrect(word, dictionary, threshold, max_suggestions, nearby_keys)`
from ver1.py: filter, sort descending by similarity, return `(None, [])` if
nothing survived, otherwise the first `max_suggestions` retained words, with
the top word as auto-correction exactly when its score exceeds `0.90`. -/
def autocorrect (word : List Char) (dictionary : List (List Char))
    (threshold : ℚ) (max_suggestions : ℕ) (nearby_keys : KeyMap) :
    Option (List Char) × List (List Char) :=
  let similarities :=
    sortDesc (retainedCandidates word dictionary threshold nearby_keys)
  match similarities with
  | [] => (none, [])
  | (best_match, best_score) :: rest =>
    let suggestions :=
      (((best_match, best_score) :: rest).take max_suggestions).map Prod.fst
    if (9/10 : ℚ) < best_score then (some best_match, suggestions)
    else (none, suggestions)

/-- Extending a neighbor relation with one entry: record `y` as a neighbor
of `x` (keys and values stored lowercased, as `load_keymap_conf` does),
keeping every existing neighbor of `x`.  Used to state the monotonicity
property of the spec; not a function of the source. -/
def addNeighbor (nearby_keys : KeyMap) (x y : Char) : KeyMap :=
  (x.toLower, getNeighbors nearby_keys x.toLower ++ [y.toLower]) :: nearby_keys

set_option maxRecDepth 100000

/-! ## Basic facts about the substitution cost -/

lemma substCost_nonneg (c1 c2 : Char) (R : KeyMap) : 0 ≤ substCost c1 c2 R := by
  unfold substCost
  split
  · norm_num
  · split <;> norm_num

lemma substCost_le_one (c1 c2 : Char) (R : KeyMap) : substCost c1 c2 R ≤ 1 := by
  unfold substCost
  split
  · norm_num
  · split <;> norm_num

lemma substCost_eq_zero_iff (c1 c2 : Char) (R : KeyMap) :
    substCost c1 c2 R = 0 ↔ c1 = c2 := by
  unfold substCost
  split
  · simp_all
  · split <;> simp_all

/-! ## Equation lemmas for the DP table -/

lemma dpGo_zero (a b : List Char) (R : KeyMap) (i : ℕ) (prev : ℕ → ℚ) :
    dpGo a b R i prev 0 = (i : ℚ) + 1 := rfl

lemma dpGo_succ (a b : List Char) (R : KeyMap) (i : ℕ) (prev : ℕ → ℚ) (j : ℕ) :
    dpGo a b R i prev (j + 1) =
      min (prev (j + 1) + 1)
        (min (dpGo a b R i prev j + 1)
          (prev j + substCost (a.getD i ' ') (b.getD j ' ') R)) := rfl

lemma dpRow_zero (a b : List Char) (R : KeyMap) (j : ℕ) :
    dpRow a b R 0 j = (j : ℚ) := rfl

lemma dpRow_succ (a b : List Char) (R : KeyMap) (i j : ℕ) :
    dpRow a b R (i + 1) j = dpGo a b R i (dpRow a b R i) j := rfl

/-! ## Bounds on the DP table: every entry is in `[0, max i j]` -/

lemma dpGo_nonneg (a b : List Char) (R : KeyMap) (i : ℕ) (prev : ℕ → ℚ)
    (hprev : ∀ j, 0 ≤ prev j) : ∀ j, 0 ≤ dpGo a b R i prev j := by
  intro j
  induction j with
  | zero => rw [dpGo_zero]; positivity
  | succ n ih =>
    rw [dpGo_succ]
    refine le_min ?_ (le_min ?_ ?_)
    · linarith [hprev (n + 1)]
    · linarith
    · linarith [hprev n, substCost_nonneg (a.getD i ' ') (b.getD n ' ') R]

lemma dpRow_nonneg (a b : List Char) (R : KeyMap) :
    ∀ i j, 0 ≤ dpRow a b R i j := by
  intro i
  induction i with
  | zero => intro j; rw [dpRow_zero]; positivity
  | succ n ih => intro j; rw [dpRow_succ]; exact dpGo_nonneg a b R n _ ih j

lemma dpGo_le_max (a b : List Char) (R : KeyMap) (i : ℕ) (prev : ℕ → ℚ)
    (hprev : ∀ j, prev j ≤ ((max i j : ℕ) : ℚ)) :
    ∀ j, dpGo a b R i prev j ≤ ((max (i + 1) j : ℕ) : ℚ) := by
  intro j
  induction j with
  | zero =>
    rw [dpGo_zero]
    simp
  | succ n ih =>
    rw [dpGo_succ]
    refine le_trans (le_trans (min_le_right _ _) (min_le_right _ _)) ?_
    have h1 : prev n ≤ ((max i n : ℕ) : ℚ) := hprev n
    have h2 : substCost (a.getD i ' ') (b.getD n ' ') R ≤ 1 :=
      substCost_le_one _ _ R
    have h3 : max (i + 1) (n + 1) = max i n + 1 := by omega
    rw [h3]
    have h4 : (((max i n) + 1 : ℕ) : ℚ) = ((max i n : ℕ) : ℚ) + 1 := by
      push_cast
      ring
    rw [h4]
    linarith

lemma dpRow_le_max (a b : List Char) (R : KeyMap) :
    ∀ i j, dpRow a b R i j ≤ ((max i j : ℕ) : ℚ) := by
  intro i
  induction i with
  | zero =>
    intro j
    rw [dpRow_zero]
    simp
  | succ n ih =>
    intro j
    rw [dpRow_succ]
    exact dpGo_le_max a b R n _ ih j

/-! ## The DP entry is zero exactly on equal prefixes -/

lemma min3_eq_zero_iff {A B C : ℚ} (hA : 1 ≤ A) (hB : 1 ≤ B) (_hC : 0 ≤ C) :
    min A (min B C) = 0 ↔ C = 0 := by
  constructor
  · intro h
    rcases min_eq_iff.mp h with ⟨hA0, _⟩ | ⟨h2, _⟩
    · linarith
    · rcases min_eq_iff.mp h2 with ⟨hB0, _⟩ | ⟨hC0, _⟩
      · linarith
      · exact hC0
  · intro h
    rw [h, min_eq_right (by linarith : (0 : ℚ) ≤ B),
      min_eq_right (by linarith : (0 : ℚ) ≤ A)]

lemma take_concat_eq_take_concat_iff {a b : List Char} {i j : ℕ}
    (hi : i < a.length) (hj : j < b.length) :
    a.take (i + 1) = b.take (j + 1) ↔
      a.take i = b.take j ∧ a.getD i ' ' = b.getD j ' ' := by
  rw [List.getD_eq_getElem a ' ' hi, List.getD_eq_getElem b ' ' hj, List.take_succ,
    List.take_succ, List.getElem?_eq_getElem hi, List.getElem?_eq_getElem hj]
  simp only [Option.toList_some]
  constructor
  · intro h
    have h2 := List.append_inj' h rfl
    simpa using h2
  · intro h
    rw [h.1, h.2]

lemma dpGo_eq_zero_iff (a b : List Char) (R : KeyMap) (i : ℕ) (prev : ℕ → ℚ)
    (hnn : ∀ j, 0 ≤ prev j)
    (hiff : ∀ j, j ≤ b.length → (prev j = 0 ↔ a.take i = b.take j))
    (hi : i < a.length) :
    ∀ j, j ≤ b.length → (dpGo a b R i prev j = 0 ↔ a.take (i + 1) = b.take j) := by
  intro j
  induction j with
  | zero =>
    intro _
    rw [dpGo_zero]
    constructor
    · intro h
      have h0 : (0 : ℚ) ≤ (i : ℚ) := Nat.cast_nonneg i
      linarith
    · intro h
      have h1 : a = [] := by simpa using h
      rw [h1] at hi
      simp at hi
  | succ n ih =>
    intro hle
    rw [dpGo_succ]
    have hnle : n ≤ b.length := by omega
    have hnlt : n < b.length := by omega
    rw [min3_eq_zero_iff (by linarith [hnn (n + 1)])
      (by linarith [dpGo_nonneg a b R i prev hnn n])
      (by linarith [hnn n, substCost_nonneg (a.getD i ' ') (b.getD n ' ') R])]
    rw [add_eq_zero_iff_of_nonneg (hnn n)
      (substCost_nonneg (a.getD i ' ') (b.getD n ' ') R)]
    rw [hiff n hnle, substCost_eq_zero_iff]
    exact (take_concat_eq_take_concat_iff hi hnlt).symm

lemma dpRow_eq_zero_iff (a b : List Char) (R : KeyMap) :
    ∀ i, i ≤ a.length → ∀ j, j ≤ b.length →
      (dpRow a b R i j = 0 ↔ a.take i = b.take j) := by
  intro i
  induction i with
  | zero =>
    intro _ j hj
    rw [dpRow_zero]
    constructor
    · intro h
      have hj0 : j = 0 := by exact_mod_cast h
      rw [hj0]
      rfl
    · intro h
      rcases List.take_eq_nil_iff.mp h.symm with h1 | h1
      · rw [h1]
        norm_num
      · rw [h1] at hj
        simp at hj
        rw [hj]
        norm_num
  | succ n ih =>
    intro hle j hj
    rw [dpRow_succ]
    exact dpGo_eq_zero_iff a b R n _ (dpRow_nonneg a b R n)
      (fun j hj => ih (by omega) j hj) (by omega) j hj

/-! ## The similarity: definition unfolding, bounds, equality characterization -/

lemma mlr_def (a b : List Char) (R : KeyMap) :
    modified_levenshtein_ratio a b R =
      1 - dpRow a b R a.length b.length /
        (if max a.length b.length ≠ 0 then ((max a.length b.length : ℕ) : ℚ)
          else 1) := by
  unfold modified_levenshtein_ratio
  rfl

lemma mlr_denom_pos (a b : List Char) :
    (0 : ℚ) < (if max a.length b.length ≠ 0 then ((max a.length b.length : ℕ) : ℚ)
      else 1) := by
  split
  · rename_i h
    exact_mod_cast Nat.pos_of_ne_zero h
  · norm_num

lemma mlr_le_one (a b : List Char) (R : KeyMap) :
    modified_levenshtein_ratio a b R ≤ 1 := by
  rw [mlr_def]
  have hD := dpRow_nonneg a b R a.length b.length
  have hM := mlr_denom_pos a b
  have := div_nonneg hD hM.le
  linarith

lemma mlr_nonneg (a b : List Char) (R : KeyMap) :
    0 ≤ modified_levenshtein_ratio a b R := by
  rw [mlr_def]
  split
  · rename_i h
    have hD := dpRow_le_max a b R a.length b.length
    have hM : (0 : ℚ) < ((max a.length b.length : ℕ) : ℚ) := by
      exact_mod_cast Nat.pos_of_ne_zero h
    have := (div_le_one hM).mpr hD
    linarith
  · rename_i h
    have h0 : max a.length b.length = 0 := by omega
    have ha : a.length = 0 := by omega
    have hb : b.length = 0 := by omega
    rw [ha, hb, dpRow_zero]
    norm_num

lemma mlr_eq_one_iff (a b : List Char) (R : KeyMap) :
    modified_levenshtein_ratio a b R = 1 ↔ a = b := by
  rw [mlr_def]
  have hM := mlr_denom_pos a b
  rw [sub_eq_self, div_eq_zero_iff]
  constructor
  · intro h
    rcases h with h | h
    · have := (dpRow_eq_zero_iff a b R a.length le_rfl b.length le_rfl).mp h
      rwa [List.take_length, List.take_length] at this
    · linarith
  · intro h
    left
    refine (dpRow_eq_zero_iff a b R a.length le_rfl b.length le_rfl).mpr ?_
    rw [List.take_length, List.take_length, h]

/-! ## Monotonicity in the neighbor relation -/

lemma substCost_mono {R R' : KeyMap}
    (hmono : ∀ c d : Char, are_keys_nearby c d R = true →
      are_keys_nearby c d R' = true) (c1 c2 : Char) :
    substCost c1 c2 R' ≤ substCost c1 c2 R := by
  by_cases h : c1 = c2
  · simp [substCost, h]
  · by_cases h2 : are_keys_nearby c1 c2 R = true
    · have h3 := hmono c1 c2 h2
      simp [substCost, h, h2, h3]
    · have hR : substCost c1 c2 R = 1 := by
        simp [substCost, h, h2]
      rw [hR]
      exact substCost_le_one c1 c2 R'

lemma dpGo_mono {R R' : KeyMap}
    (hmono : ∀ c d : Char, are_keys_nearby c d R = true →
      are_keys_nearby c d R' = true)
    (a b : List Char) (i : ℕ) (prev prev' : ℕ → ℚ)
    (hprev : ∀ j, prev' j ≤ prev j) :
    ∀ j, dpGo a b R' i prev' j ≤ dpGo a b R i prev j := by
  intro j
  induction j with
  | zero => rw [dpGo_zero, dpGo_zero]
  | succ n ih =>
    rw [dpGo_succ, dpGo_succ]
    refine min_le_min (by linarith [hprev (n + 1)]) (min_le_min (by linarith) ?_)
    have := substCost_mono hmono (a.getD i ' ') (b.getD n ' ')
    linarith [hprev n]

lemma dpRow_mono {R R' : KeyMap}
    (hmono : ∀ c d : Char, are_keys_nearby c d R = true →
      are_keys_nearby c d R' = true)
    (a b : List Char) : ∀ i j, dpRow a b R' i j ≤ dpRow a b R i j := by
  intro i
  induction i with
  | zero => intro j; rw [dpRow_zero, dpRow_zero]
  | succ n ih =>
    intro j
    rw [dpRow_succ, dpRow_succ]
    exact dpGo_mono hmono a b n _ _ ih j

lemma mlr_mono {R R' : KeyMap}
    (hmono : ∀ c d : Char, are_keys_nearby c d R = true →
      are_keys_nearby c d R' = true) (a b : List Char) :
    modified_levenshtein_ratio a b R ≤ modified_levenshtein_ratio a b R' := by
  rw [mlr_def, mlr_def]
  have hM := mlr_denom_pos a b
  have hd := dpRow_mono hmono a b a.length b.length
  have h2 := (div_le_div_iff_of_pos_right hM).mpr hd
  linarith

lemma getNeighbors_addNeighbor (R : KeyMap) (x y c : Char) :
    getNeighbors (addNeighbor R x y) c =
      if x.toLower = c then getNeighbors R x.toLower ++ [y.toLower]
      else getNeighbors R c := rfl

lemma are_keys_nearby_addNeighbor {R : KeyMap} {c d : Char} (x y : Char)
    (h : are_keys_nearby c d R = true) :
    are_keys_nearby c d (addNeighbor R x y) = true := by
  unfold are_keys_nearby at h ⊢
  rw [decide_eq_true_iff] at h ⊢
  rw [getNeighbors_addNeighbor]
  split
  · rename_i hkey
    rw [← hkey] at h
    exact List.mem_append_left _ h
  · exact h

/-! ## The stable descending sort -/

lemma insertDesc_cons (x z : List Char × ℚ) (zs : List (List Char × ℚ)) :
    insertDesc x (z :: zs) =
      if x.2 < z.2 then z :: insertDesc x zs else x :: z :: zs := rfl

lemma mem_insertDesc (x y : List Char × ℚ) (s : List (List Char × ℚ)) :
    y ∈ insertDesc x s ↔ y = x ∨ y ∈ s := by
  induction s with
  | nil => simp [insertDesc]
  | cons z zs ih =>
    rw [insertDesc_cons]
    split
    · simp only [List.mem_cons, ih]
      tauto
    · simp [List.mem_cons]

lemma mem_sortDesc (y : List Char × ℚ) (s : List (List Char × ℚ)) :
    y ∈ sortDesc s ↔ y ∈ s := by
  induction s with
  | nil => simp [sortDesc]
  | cons z zs ih =>
    unfold sortDesc
    rw [mem_insertDesc, ih]
    simp

lemma pairwise_insertDesc (x : List Char × ℚ) (s : List (List Char × ℚ))
    (hs : s.Pairwise (fun u v => v.2 ≤ u.2)) :
    (insertDesc x s).Pairwise (fun u v => v.2 ≤ u.2) := by
  induction s with
  | nil => simp [insertDesc]
  | cons z zs ih =>
    rw [List.pairwise_cons] at hs
    rw [insertDesc_cons]
    split
    · rename_i hlt
      rw [List.pairwise_cons]
      refine ⟨?_, ih hs.2⟩
      intro u hu
      rcases (mem_insertDesc x u zs).mp hu with h | h
      · rw [h]
        linarith
      · exact hs.1 u h
    · rename_i hnlt
      push_neg at hnlt
      rw [List.pairwise_cons, List.pairwise_cons]
      refine ⟨?_, hs.1, hs.2⟩
      intro u hu
      rcases List.mem_cons.mp hu with h | h
      · rw [h]
        exact hnlt
      · linarith [hs.1 u h]

lemma pairwise_sortDesc (s : List (List Char × ℚ)) :
    (sortDesc s).Pairwise (fun u v => v.2 ≤ u.2) := by
  induction s with
  | nil => simp [sortDesc]
  | cons z zs ih => exact pairwise_insertDesc z (sortDesc zs) ih

lemma filter_insertDesc (x : List Char × ℚ) (s : List (List Char × ℚ)) (q : ℚ) :
    (insertDesc x s).filter (fun u => decide (u.2 = q)) =
      if x.2 = q then x :: s.filter (fun u => decide (u.2 = q))
      else s.filter (fun u => decide (u.2 = q)) := by
  induction s with
  | nil =>
    simp only [insertDesc, List.filter]
    split <;> simp_all
  | cons z zs ih =>
    rw [insertDesc_cons]
    by_cases hxz : x.2 < z.2
    · rw [if_pos hxz]
      simp only [List.filter_cons, ih]
      by_cases hz : z.2 = q
      · have hx : ¬ x.2 = q := by
          intro h2
          rw [h2, hz] at hxz
          exact lt_irrefl q hxz
        simp [hz, hx]
      · by_cases hx : x.2 = q <;> simp [hz, hx]
    · rw [if_neg hxz]
      simp only [List.filter_cons]
      by_cases hx : x.2 = q <;> simp [hx]

lemma filter_sortDesc (s : List (List Char × ℚ)) (q : ℚ) :
    (sortDesc s).filter (fun u => decide (u.2 = q)) =
      s.filter (fun u => decide (u.2 = q)) := by
  induction s with
  | nil => rfl
  | cons z zs ih =>
    unfold sortDesc
    rw [filter_insertDesc, List.filter_cons]
    split <;> simp_all

/-! ## Unfolding `autocorrect` -/

lemma autocorrect_of_ranked_nil {word : List Char} {dictionary : List (List Char)}
    {threshold : ℚ} {R : KeyMap} (max_suggestions : ℕ)
    (h : sortDesc (retainedCandidates word dictionary threshold R) = []) :
    autocorrect word dictionary threshold max_suggestions R = (none, []) := by
  unfold autocorrect
  rw [h]

lemma autocorrect_of_ranked_cons {word : List Char} {dictionary : List (List Char)}
    {threshold : ℚ} {R : KeyMap} (max_suggestions : ℕ)
    {best : List Char} {score : ℚ} {rest : List (List Char × ℚ)}
    (h : sortDesc (retainedCandidates word dictionary threshold R) =
      (best, score) :: rest) :
    autocorrect word dictionary threshold max_suggestions R =
      if (9/10 : ℚ) < score then
        (some best, (((best, score) :: rest).take max_suggestions).map Prod.fst)
      else
        (none, (((best, score) :: rest).take max_suggestions).map Prod.fst) := by
  unfold autocorrect
  rw [h]

lemma autocorrect_snd_eq (word : List Char) (dictionary : List (List Char))
    (threshold : ℚ) (max_suggestions : ℕ) (R : KeyMap) :
    (autocorrect word dictionary threshold max_suggestions R).2 =
      ((sortDesc (retainedCandidates word dictionary threshold R)).take
        max_suggestions).map Prod.fst := by
  rcases hs : sortDesc (retainedCandidates word dictionary threshold R) with
    _ | ⟨⟨b, s⟩, rest⟩
  · rw [autocorrect_of_ranked_nil max_suggestions hs]
    simp
  · rw [autocorrect_of_ranked_cons max_suggestions hs]
    split <;> rfl

lemma autocorrect_fst_some {word : List Char} {dictionary : List (List Char)}
    {threshold : ℚ} {max_suggestions : ℕ} {R : KeyMap} {c : List Char}
    (hc : (autocorrect word dictionary threshold max_suggestions R).1 = some c) :
    ∃ score rest,
      sortDesc (retainedCandidates word dictionary threshold R) =
        (c, score) :: rest ∧ (9/10 : ℚ) < score := by
  rcases hs : sortDesc (retainedCandidates word dictionary threshold R) with
    _ | ⟨⟨b, s⟩, rest⟩
  · rw [autocorrect_of_ranked_nil max_suggestions hs] at hc
    simp at hc
  · rw [autocorrect_of_ranked_cons max_suggestions hs] at hc
    split at hc
    · rename_i h9
      simp only [Option.some.injEq] at hc
      refine ⟨s, rest, ?_, h9⟩
      rw [hc]
    · simp at hc

lemma mem_retained_fst {word : List Char} {dictionary : List (List Char)}
    {threshold : ℚ} {R : KeyMap} {p : List Char × ℚ}
    (hp : p ∈ retainedCandidates word dictionary threshold R) :
    p.1 ∈ dictionary := by
  unfold retainedCandidates at hp
  rw [List.mem_filterMap] at hp
  obtain ⟨v, hv, hfv⟩ := hp
  have hfv2 : (if threshold ≤
        modified_levenshtein_ratio (List.map Char.toLower word) v R then
      some (v, modified_levenshtein_ratio (List.map Char.toLower word) v R)
    else none) = some p := hfv
  split at hfv2
  · injection hfv2 with h1
    rw [← h1]
    exact hv
  · exact absurd hfv2 (by simp)

/-! ## The claims -/

/-- Claim C1, counterexample: the claim says the substitution cost is 0
whenever the two characters are equal case-insensitively (e.g. 'A' and 'a'),
for every pair of input strings and every neighbor relation.  In the code the
zero-cost branch tests exact equality (`c1 == c2`), so 'A' versus 'a' costs 1
with the empty relation, and the similarity of "A" and "a" is 0, not 1. -/
theorem substCost_caseInsensitive_counterexample :
    Char.toLower 'A' = Char.toLower 'a' ∧ substCost 'A' 'a' [] = 1 ∧
      substCost 'A' 'a' [] ≠ 0 ∧
      modified_levenshtein_ratio ("A".toList) ("a".toList) [] = 0 := by
  refine ⟨rfl, ?_, ?_, ?_⟩
  · with_unfolding_all decide
  · with_unfolding_all decide
  · with_unfolding_all decide

/-- Claim C1, amended: the substitution cost is 0 exactly when the two
characters are equal as characters (exact equality); a pair equal only
case-insensitively is not free (in the full pipeline the input word is
lowercased and dictionary entries are lowercase, so there the two notions
coincide). -/
theorem substCost_zero_iff_exact_eq (c1 c2 : Char) (R : KeyMap) :
    substCost c1 c2 R = 0 ↔ c1 = c2 :=
  substCost_eq_zero_iff c1 c2 R

/-- Claim C2: for every pair of strings and every neighbor relation the
similarity lies in [0, 1]; it equals 1 exactly when the strings are
identical; and the empty/empty case yields 1 (denominator floored at 1). -/
theorem similarity_bounds_eq_one_iff (a b : List Char) (R : KeyMap) :
    0 ≤ modified_levenshtein_ratio a b R ∧
      modified_levenshtein_ratio a b R ≤ 1 ∧
      (modified_levenshtein_ratio a b R = 1 ↔ a = b) ∧
      modified_levenshtein_ratio [] [] R = 1 :=
  ⟨mlr_nonneg a b R, mlr_le_one a b R, mlr_eq_one_iff a b R,
    (mlr_eq_one_iff [] [] R).mpr rfl⟩

/-- Claim C3: when at least one candidate is retained, a top score strictly
above 0.90 yields an auto-correction equal to the top-ranked word, and a top
score of at most 0.90 yields no auto-correction while the suggestion list is
still returned. -/
theorem autocorrect_decision_boundary (word : List Char)
    (dictionary : List (List Char)) (threshold : ℚ) (max_suggestions : ℕ)
    (R : KeyMap) (best : List Char) (score : ℚ) (rest : List (List Char × ℚ))
    (h : sortDesc (retainedCandidates word dictionary threshold R) =
      (best, score) :: rest) :
    ((9/10 : ℚ) < score →
        autocorrect word dictionary threshold max_suggestions R =
          (some best,
            (((best, score) :: rest).take max_suggestions).map Prod.fst)) ∧
      (score ≤ (9/10 : ℚ) →
        autocorrect word dictionary threshold max_suggestions R =
          (none, (((best, score) :: rest).take max_suggestions).map Prod.fst)) := by
  rw [autocorrect_of_ranked_cons max_suggestions h]
  constructor
  · intro h9
    rw [if_pos h9]
  · intro h9
    rw [if_neg (not_lt.mpr h9)]

/-- Witness for claim C3: a dictionary containing the input word itself gives
top score 1 > 0.90, so the word is auto-corrected to itself. -/
theorem autocorrect_decision_boundary_witness :
    autocorrect ("hello".toList) ["hello".toList] (3/4) 5 [] =
      (some ("hello".toList), ["hello".toList]) := by
  have h : sortDesc (retainedCandidates ("hello".toList) ["hello".toList]
      (3/4) []) = [(("hello".toList), 1)] := by
    with_unfolding_all decide
  have h2 := (autocorrect_decision_boundary ("hello".toList) ["hello".toList]
      (3/4) 5 [] ("hello".toList) 1 [] h).1 (by norm_num)
  simpa using h2

/-- Claim C4: a dictionary entry is retained as a candidate if and only if its
similarity to the lowercased input word is at least the threshold (ties at
the threshold included). -/
theorem retained_iff_threshold (word : List Char)
    (dictionary : List (List Char)) (threshold : ℚ) (R : KeyMap)
    (w : List Char) :
    w ∈ (retainedCandidates word dictionary threshold R).map Prod.fst ↔
      w ∈ dictionary ∧
        threshold ≤ modified_levenshtein_ratio (word.map Char.toLower) w R := by
  unfold retainedCandidates
  rw [List.mem_map]
  constructor
  · rintro ⟨p, hp, hp1⟩
    rw [List.mem_filterMap] at hp
    obtain ⟨v, hv, hfv⟩ := hp
    have hfv2 : (if threshold ≤
          modified_levenshtein_ratio (List.map Char.toLower word) v R then
        some (v, modified_levenshtein_ratio (List.map Char.toLower word) v R)
      else none) = some p := hfv
    split at hfv2
    · rename_i hthr
      injection hfv2 with h1
      rw [← hp1, ← h1]
      exact ⟨hv, hthr⟩
    · exact absurd hfv2 (by simp)
  · rintro ⟨hw, hthr⟩
    refine ⟨(w, modified_levenshtein_ratio (List.map Char.toLower word) w R),
      ?_, rfl⟩
    rw [List.mem_filterMap]
    refine ⟨w, hw, ?_⟩
    show (if threshold ≤
          modified_levenshtein_ratio (List.map Char.toLower word) w R then
        some (w, modified_levenshtein_ratio (List.map Char.toLower word) w R)
      else none) = _
    rw [if_pos hthr]

/-- Claim C5: the suggestion list is the first `max_suggestions` entries of
the retained list sorted by similarity descending with the stable tie-break
(at every score value the order of the retained entries is unchanged), so it
is ordered by non-increasing similarity and has at most `max_suggestions`
elements. -/
theorem suggestions_sorted_take (word : List Char)
    (dictionary : List (List Char)) (threshold : ℚ) (max_suggestions : ℕ)
    (R : KeyMap) :
    (autocorrect word dictionary threshold max_suggestions R).2 =
        ((sortDesc (retainedCandidates word dictionary threshold R)).take
          max_suggestions).map Prod.fst ∧
      (sortDesc (retainedCandidates word dictionary threshold R)).Pairwise
        (fun u v => v.2 ≤ u.2) ∧
      (∀ q : ℚ,
        (sortDesc (retainedCandidates word dictionary threshold R)).filter
            (fun u => decide (u.2 = q)) =
          (retainedCandidates word dictionary threshold R).filter
            (fun u => decide (u.2 = q))) ∧
      (autocorrect word dictionary threshold max_suggestions R).2.length ≤
        max_suggestions := by
  refine ⟨autocorrect_snd_eq word dictionary threshold max_suggestions R,
    pairwise_sortDesc _, fun q => filter_sortDesc _ q, ?_⟩
  rw [autocorrect_snd_eq word dictionary threshold max_suggestions R,
    List.length_map]
  exact List.length_take_le _ _

/-- Claim C6: cost 0.5 applies exactly when the characters differ and the
directional lookup succeeds (the first string's character is the key), and
with the asymmetric relation o maps-to [i] the similarity of "o","i" differs
from that of "i","o". -/
theorem nearby_lookup_directional :
    (∀ (c1 c2 : Char) (R : KeyMap),
        substCost c1 c2 R = 1/2 ↔
          c1 ≠ c2 ∧ are_keys_nearby c1 c2 R = true) ∧
      modified_levenshtein_ratio ("o".toList) ("i".toList) [('o', ['i'])] ≠
        modified_levenshtein_ratio ("i".toList) ("o".toList) [('o', ['i'])] := by
  constructor
  · intro c1 c2 R
    unfold substCost
    split
    · rename_i h
      constructor
      · intro habs
        norm_num at habs
      · rintro ⟨h1, _⟩
        exact absurd h h1
    · rename_i h
      split
      · rename_i h2
        simp [h, h2]
      · rename_i h2
        constructor
        · intro habs
          norm_num at habs
        · rintro ⟨_, h3⟩
          exact absurd h3 h2
  · with_unfolding_all decide

/-- Claim C7: extending the neighbor relation by one entry between two
differing characters never decreases the similarity, for every pair of
strings. -/
theorem similarity_addNeighbor_mono (a b : List Char) (R : KeyMap)
    (x y : Char) (_hxy : x ≠ y) :
    modified_levenshtein_ratio a b R ≤
      modified_levenshtein_ratio a b (addNeighbor R x y) :=
  mlr_mono (fun _ _ h => are_keys_nearby_addNeighbor x y h) a b

/-- Witness for claim C7: adding i as a neighbor of o does not decrease the
similarity of "hollo" and "hillo". -/
theorem similarity_addNeighbor_mono_witness :
    modified_levenshtein_ratio ("hollo".toList) ("hillo".toList) [] ≤
      modified_levenshtein_ratio ("hollo".toList) ("hillo".toList)
        (addNeighbor [] 'o' 'i') :=
  similarity_addNeighbor_mono ("hollo".toList) ("hillo".toList) [] 'o' 'i'
    (by decide)

/-- Claim C8: when no dictionary entry survives the threshold filter (empty
dictionary, empty input word, no close match, ...), `autocorrect` returns the
well-defined empty result `(none, [])` rather than failing (as a total Lean
function it cannot raise). -/
theorem autocorrect_no_survivors (word : List Char)
    (dictionary : List (List Char)) (threshold : ℚ) (max_suggestions : ℕ)
    (R : KeyMap)
    (h : retainedCandidates word dictionary threshold R = []) :
    autocorrect word dictionary threshold max_suggestions R = (none, []) :=
  autocorrect_of_ranked_nil max_suggestions (by rw [h]; rfl)

/-- Witness for claim C8: the empty input word against the dictionary
["a", "bb"] retains nothing (similarities 0 and -1 are below 0.75). -/
theorem autocorrect_no_survivors_witness :
    autocorrect [] ["a".toList, "bb".toList] (3/4) 5 [] = (none, []) :=
  autocorrect_no_survivors [] ["a".toList, "bb".toList] (3/4) 5 []
    (by with_unfolding_all decide)

/-- Claim C9: whenever an auto-correction is returned and
`max_suggestions ≥ 1`, it is the first element of the suggestion list; with
`max_suggestions = 0` an auto-correction can be returned together with an
empty suggestion list. -/
theorem correction_heads_suggestions (word : List Char)
    (dictionary : List (List Char)) (threshold : ℚ) (max_suggestions : ℕ)
    (R : KeyMap) (c : List Char) (hm : 1 ≤ max_suggestions)
    (hc : (autocorrect word dictionary threshold max_suggestions R).1 =
      some c) :
    (autocorrect word dictionary threshold max_suggestions R).2.head? =
        some c ∧
      autocorrect ("hello".toList) ["hello".toList] (3/4) 0 [] =
        (some ("hello".toList), []) := by
  constructor
  · obtain ⟨s, rest, hs, _⟩ := autocorrect_fst_some hc
    rw [autocorrect_snd_eq, hs]
    obtain ⟨m, rfl⟩ : ∃ m, max_suggestions = m + 1 :=
      ⟨max_suggestions - 1, by omega⟩
    simp
  · with_unfolding_all decide

/-- Witness for claim C9: with one suggestion slot, the auto-corrected word
heads the suggestion list. -/
theorem correction_heads_suggestions_witness :
    (autocorrect ("hello".toList) ["hello".toList] (3/4) 1 []).2.head? =
      some ("hello".toList) :=
  (correction_heads_suggestions ("hello".toList) ["hello".toList] (3/4) 1 []
    ("hello".toList) (by norm_num) (by with_unfolding_all decide)).1

/-- Claim C10: every word in the suggestion list, and the auto-correction
when present, is an element of the input dictionary, returned verbatim. -/
theorem results_from_dictionary (word : List Char)
    (dictionary : List (List Char)) (threshold : ℚ) (max_suggestions : ℕ)
    (R : KeyMap) :
    (∀ w ∈ (autocorrect word dictionary threshold max_suggestions R).2,
        w ∈ dictionary) ∧
      ∀ c, (autocorrect word dictionary threshold max_suggestions R).1 =
          some c → c ∈ dictionary := by
  constructor
  · intro w hw
    rw [autocorrect_snd_eq, List.mem_map] at hw
    obtain ⟨p, hp, hp1⟩ := hw
    have hp2 : p ∈ sortDesc (retainedCandidates word dictionary threshold R) :=
      List.mem_of_mem_take hp
    rw [mem_sortDesc] at hp2
    rw [← hp1]
    exact mem_retained_fst hp2
  · intro c hc
    obtain ⟨s, rest, hs, _⟩ := autocorrect_fst_some hc
    have hmem : (c, s) ∈
        sortDesc (retainedCandidates word dictionary threshold R) := by
      rw [hs]
      exact List.mem_cons_self _ _
    rw [mem_sortDesc] at hmem
    exact mem_retained_fst hmem

/-- Witness for claim C10: the single suggestion for "helo" is the dictionary
entry "hello". -/
theorem results_from_dictionary_witness :
    "hello".toList ∈ ["hello".toList] :=
  (results_from_dictionary ("helo".toList) ["hello".toList] (3/4) 5 []).1
    ("hello".toList) (by with_unfolding_all decide)
